import Mathlib

/-!
Verification of the `musictheory` repository's pitch/interval algebra
(`src/musictheory.py`) and chord-progression generator (`src/composer.py`).

The Python code is shallowly embedded: `Pitch` and `Interval` objects become
structures over `Int`, Python `//` and `%` (floor division and floor modulus)
become `Int.fdiv` and `Int.fmod`, strings become `List Char`, and fallible
constructors return `Option`/`Except`.  Python's regex-driven parsers are
embedded as deterministic functions; comments at each definition record the
argument that the deterministic function agrees with the backtracking regex.
-/

namespace MusicTheory

instance {ε α : Type} [DecidableEq ε] [DecidableEq α] : DecidableEq (Except ε α) := fun x y =>
  match x, y with
  | .ok a, .ok b =>
    if h : a = b then .isTrue (h ▸ rfl) else .isFalse (fun he => h (Except.ok.inj he))
  | .error a, .error b =>
    if h : a = b then .isTrue (h ▸ rfl) else .isFalse (fun he => h (Except.error.inj he))
  | .ok _, .error _ => .isFalse (fun he => Except.noConfusion he)
  | .error _, .ok _ => .isFalse (fun he => Except.noConfusion he)

/-! ## Decimal digit machinery

Models Python's `str` on non-negative integers (used by `Pitch.name` and
`Interval.name`) and `int` on digit strings (used by both parsers). -/

def digitChar : Nat → Char
  | 0 => '0' | 1 => '1' | 2 => '2' | 3 => '3' | 4 => '4'
  | 5 => '5' | 6 => '6' | 7 => '7' | 8 => '8' | 9 => '9'
  | _ => '0'

def isDigitCh (c : Char) : Bool := 48 ≤ c.toNat && c.toNat ≤ 57

def digitVal (c : Char) : Nat := c.toNat - 48

/-- Value of a decimal digit string, most significant digit first; this is what
Python's `int(...)` computes on a string of digits (leading zeros allowed). -/
def digitsToNat (s : List Char) : Nat := s.foldl (fun a c => 10 * a + digitVal c) 0

/-- Reversed decimal digits of `n` (least significant first).  Fueled so that
the definition is structurally recursive; `fuel > n` always suffices. -/
def natDigitsRevAux : Nat → Nat → List Char
  | 0, _ => []
  | fuel + 1, n => if n < 10 then [digitChar n] else digitChar (n % 10) :: natDigitsRevAux fuel (n / 10)

/-- Decimal representation of `n`, the embedding of Python's `str` on a
non-negative integer. -/
def natRepr (n : Nat) : List Char := (natDigitsRevAux (n + 1) n).reverse

/-- Value of a reversed digit list. -/
def valRev : List Char → Nat
  | [] => 0
  | c :: cs => digitVal c + 10 * valRev cs

theorem digitVal_digitChar {n : Nat} (h : n < 10) : digitVal (digitChar n) = n := by
  interval_cases n <;> decide

theorem isDigitCh_digitChar {n : Nat} (h : n < 10) : isDigitCh (digitChar n) = true := by
  interval_cases n <;> decide

theorem digitsToNat_append_singleton (xs : List Char) (c : Char) :
    digitsToNat (xs ++ [c]) = 10 * digitsToNat xs + digitVal c := by
  simp [digitsToNat, List.foldl_append]

theorem digitsToNat_reverse (l : List Char) : digitsToNat l.reverse = valRev l := by
  induction l with
  | nil => rfl
  | cons c cs ih =>
    simp only [List.reverse_cons, digitsToNat_append_singleton, valRev, ih]
    omega

theorem valRev_natDigitsRevAux : ∀ fuel n, n < fuel → valRev (natDigitsRevAux fuel n) = n := by
  intro fuel
  induction fuel with
  | zero => intro n h; omega
  | succ fuel ih =>
    intro n h
    by_cases h10 : n < 10
    · simp [natDigitsRevAux, h10, valRev, digitVal_digitChar h10]
    · have hd : n / 10 < fuel := by omega
      simp only [natDigitsRevAux, if_neg h10, valRev, ih (n / 10) hd,
        digitVal_digitChar (Nat.mod_lt n (by omega))]
      omega

theorem natDigitsRevAux_all_digits : ∀ fuel n, (natDigitsRevAux fuel n).all isDigitCh = true := by
  intro fuel
  induction fuel with
  | zero => intro n; rfl
  | succ fuel ih =>
    intro n
    by_cases h10 : n < 10
    · simp [natDigitsRevAux, h10, isDigitCh_digitChar h10]
    · simp [natDigitsRevAux, h10, isDigitCh_digitChar (Nat.mod_lt n (by omega)), ih]

theorem natDigitsRevAux_getLast_ne_zero :
    ∀ fuel n, 0 < n → n < fuel → ∃ c cs, (natDigitsRevAux fuel n).reverse = c :: cs ∧ c ≠ '0' := by
  intro fuel
  induction fuel with
  | zero => intro n _ h; omega
  | succ fuel ih =>
    intro n hn h
    by_cases h10 : n < 10
    · refine ⟨digitChar n, [], by simp [natDigitsRevAux, h10], ?_⟩
      interval_cases n <;> decide
    · have hd : n / 10 < fuel := by omega
      have hdpos : 0 < n / 10 := by omega
      obtain ⟨c, cs, hc, hne⟩ := ih (n / 10) hdpos hd
      exact ⟨c, cs ++ [digitChar (n % 10)], by simp [natDigitsRevAux, h10, hc], hne⟩

/-- Key facts about `natRepr n` for positive `n`: it is a nonempty digit string
whose leading digit is nonzero and whose value is `n`. -/
theorem natRepr_spec (n : Nat) (hn : 0 < n) :
    ∃ c cs, natRepr n = c :: cs ∧ c ≠ '0' ∧ (c :: cs).all isDigitCh = true ∧
      digitsToNat (c :: cs) = n := by
  obtain ⟨c, cs, hc, hne⟩ := natDigitsRevAux_getLast_ne_zero (n + 1) n hn (by omega)
  refine ⟨c, cs, hc, hne, ?_, ?_⟩
  · have := natDigitsRevAux_all_digits (n + 1) n
    rw [← hc]
    simpa [List.all_eq_true] using fun x hx => by
      simp only [List.all_eq_true] at this
      exact this x (by simpa using hx)
  · have h1 : digitsToNat (natRepr n) = n := by
      rw [natRepr, digitsToNat_reverse]
      exact valRev_natDigitsRevAux (n + 1) n (by omega)
    rw [← hc]; exact h1

theorem natRepr_all_digits (n : Nat) : (natRepr n).all isDigitCh = true := by
  rw [natRepr]
  simp only [List.all_eq_true]
  intro x hx
  have := natDigitsRevAux_all_digits (n + 1) n
  simp only [List.all_eq_true] at this
  exact this x (by simpa using hx)

theorem digitsToNat_natRepr (n : Nat) : digitsToNat (natRepr n) = n := by
  rw [natRepr, digitsToNat_reverse]
  exact valRev_natDigitsRevAux (n + 1) n (by omega)

theorem natRepr_ne_nil (n : Nat) : natRepr n ≠ [] := by
  rw [natRepr]
  by_cases h10 : n < 10 <;> simp [natDigitsRevAux, h10]

/-! ## takeWhile / dropWhile helper lemmas -/

theorem takeWhile_append_of_drop_ne {p : Char → Bool} :
    ∀ (xs ys : List Char), xs.dropWhile p ≠ [] →
      (xs ++ ys).takeWhile p = xs.takeWhile p := by
  intro xs
  induction xs with
  | nil => intro ys h; simp [List.dropWhile] at h
  | cons x xs ih =>
    intro ys h
    by_cases hx : p x
    · simp only [List.cons_append, List.takeWhile_cons, hx, if_true]
      rw [ih ys (by simpa [List.dropWhile, hx] using h)]
    · simp [List.takeWhile_cons, hx]

theorem dropWhile_append_of_drop_ne {p : Char → Bool} :
    ∀ (xs ys : List Char), xs.dropWhile p ≠ [] →
      (xs ++ ys).dropWhile p = xs.dropWhile p ++ ys := by
  intro xs
  induction xs with
  | nil => intro ys h; simp [List.dropWhile] at h
  | cons x xs ih =>
    intro ys h
    by_cases hx : p x
    · simp only [List.cons_append, List.dropWhile_cons, hx, if_true]
      rw [ih ys (by simpa [List.dropWhile, hx] using h)]
    · simp [List.dropWhile_cons, hx]

theorem takeWhile_append_of_all {p : Char → Bool} :
    ∀ (xs ys : List Char), xs.all p = true →
      (xs ++ ys).takeWhile p = xs ++ ys.takeWhile p := by
  intro xs
  induction xs with
  | nil => intro ys _; simp
  | cons x xs ih =>
    intro ys h
    simp only [List.all_cons, Bool.and_eq_true] at h
    simp [List.takeWhile_cons, h.1, ih ys h.2]

theorem dropWhile_append_of_all {p : Char → Bool} :
    ∀ (xs ys : List Char), xs.all p = true →
      (xs ++ ys).dropWhile p = ys.dropWhile p := by
  intro xs
  induction xs with
  | nil => intro ys _; simp
  | cons x xs ih =>
    intro ys h
    simp only [List.all_cons, Bool.and_eq_true] at h
    simp [List.dropWhile_cons, h.1, ih ys h.2]

theorem takeWhile_eq_self_of_all {p : Char → Bool} (xs : List Char) (h : xs.all p = true) :
    xs.takeWhile p = xs := by
  have := takeWhile_append_of_all xs [] h
  simpa using this

theorem dropWhile_eq_nil_of_all {p : Char → Bool} (xs : List Char) (h : xs.all p = true) :
    xs.dropWhile p = [] := by
  have := dropWhile_append_of_all xs [] h
  simpa using this

/-! ## Pitch: data model (`class Pitch`, `src/musictheory.py`)

`base_pitch_id` and `transposition` are the two stored slots.  Python's
`//`/`%` are floor division/modulus, i.e. `Int.fdiv`/`Int.fmod`. -/

structure Pitch where
  base_pitch_id : Int
  transposition : Int
deriving DecidableEq

/-- Letter table `list('cdefgab')`. -/
def pitchLetters : List Char := ['c', 'd', 'e', 'f', 'g', 'a', 'b']

/-- `Pitch.octave`: `base_pitch_id // 7`. -/
def octaveOf (b : Int) : Int := b.fdiv 7

/-- `Pitch.pitch_class`: `list('cdefgab')[base_pitch_id % 7]`. -/
def pitchClassChar (b : Int) : Char := pitchLetters.getD (b.fmod 7).toNat 'c'

/-- Natural-semitone table `{'c':0,'d':2,'e':4,'f':5,'g':7,'a':9,'b':11}`
indexed by letter index (the composition of the letter table with the dict). -/
def natSemitone : List Int := [0, 2, 4, 5, 7, 9, 11]

/-- `Pitch.midi`: `(octave+1)*12 + d[pitch_class] + transposition`. -/
def midi (p : Pitch) : Int :=
  (octaveOf p.base_pitch_id + 1) * 12 + natSemitone.getD (p.base_pitch_id.fmod 7).toNat 0 +
    p.transposition

/-- `Pitch.equals(other, check_octave)`: compares spelling. -/
def pitchEquals (p q : Pitch) (check_octave : Bool) : Bool :=
  pitchClassChar p.base_pitch_id == pitchClassChar q.base_pitch_id &&
  p.transposition == q.transposition &&
  (octaveOf p.base_pitch_id == octaveOf q.base_pitch_id || !check_octave)

/-- `Pitch.__eq__`: `self.equals(other)` (spelling equality, octave checked). -/
def pitchEqB (p q : Pitch) : Bool := pitchEquals p q true

/-- `Pitch.__ne__`: `self.midi != other.midi` (NOT the negation of `__eq__`). -/
def pitchNeB (p q : Pitch) : Bool := midi p != midi q

/-- `Pitch.__lt__`: `self.midi < other.midi`. -/
def pitchLtB (p q : Pitch) : Bool := midi p < midi q

/-- `Pitch.__le__`: `self.__lt__(other) or self.__eq__(other)`. -/
def pitchLeB (p q : Pitch) : Bool := pitchLtB p q || pitchEqB p q

/-- `Pitch.__gt__`: `not self.__le__(other)`. -/
def pitchGtB (p q : Pitch) : Bool := !pitchLeB p q

/-- `Pitch.is_enharmonic`: `self.midi == other.midi`. -/
def isEnharmonic (p q : Pitch) : Bool := midi p == midi q

/-! ## PitchCodec: `Pitch.parse_pitch_name` and `Pitch.name`

The regex is `^(as|es|[a-g])((?:es)*|(?:is)*|b*|#*)([0-9]+)$` with
`re.IGNORECASE`.  `IGNORECASE` matching of these ASCII literals followed by
`.lower()` on the captured groups is the same as lower-casing the input first.
Regex alternation with backtracking picks the first alternative that lets the
whole pattern match, which is exactly `Option.orElse` over complete parse
attempts; a `*` repetition is greedy, and backing off a repetition of `es`,
`is`, `b` or `#` leaves the remainder starting with a non-digit character, so
only the greedy repetition count can be followed by a match of `[0-9]+$`. -/

/-- Letter index dict `{pitch: id for id, pitch in enumerate('cdefgab')}`. -/
def pitchLetterIdx : Char → Option Nat
  | 'c' => some 0 | 'd' => some 1 | 'e' => some 2 | 'f' => some 3
  | 'g' => some 4 | 'a' => some 5 | 'b' => some 6 | _ => none

/-- Greedy count of leading `"es"` repetitions and the remainder. -/
def esCount : List Char → Nat × List Char
  | c1 :: c2 :: r =>
    if c1 = 'e' ∧ c2 = 's' then
      let kr := esCount r
      (kr.1 + 1, kr.2)
    else (0, c1 :: c2 :: r)
  | s => (0, s)

/-- Greedy count of leading `"is"` repetitions and the remainder. -/
def isCount : List Char → Nat × List Char
  | c1 :: c2 :: r =>
    if c1 = 'i' ∧ c2 = 's' then
      let kr := isCount r
      (kr.1 + 1, kr.2)
    else (0, c1 :: c2 :: r)
  | s => (0, s)

/-- Greedy run of a single repeated character (for `b*` and `#*`). -/
def chCount (ch : Char) (s : List Char) : Nat × List Char :=
  ((s.takeWhile (fun c => c = ch)).length, s.dropWhile (fun c => c = ch))

/-- The `[0-9]+$` tail: the whole remainder must be a nonempty digit string;
its value is the octave (Python `int` accepts leading zeros). -/
def octTail (r : List Char) : Option Nat :=
  if r ≠ [] ∧ r.all isDigitCh then some (digitsToNat r) else none

/-- One accidental alternative followed by the octave tail. -/
def accAlt (count : List Char → Nat × List Char) (r : List Char) : Option (Nat × Nat) :=
  match octTail (count r).2 with
  | some o => some ((count r).1, o)
  | none => none

/-- The accidentals group `(?:es)*|(?:is)*|b*|#*` followed by `[0-9]+$`:
returns the signed accidental count `sharps - flats` (from
`accidentals.count(...)`) and the octave. -/
def parseAcc (r : List Char) : Option (Int × Nat) :=
  match accAlt esCount r with
  | some (k, o) => some (-(k : Int), o)
  | none =>
    match accAlt isCount r with
    | some (k, o) => some ((k : Int), o)
    | none =>
      match accAlt (chCount 'b') r with
      | some (k, o) => some (-(k : Int), o)
      | none =>
        match accAlt (chCount '#') r with
        | some (k, o) => some ((k : Int), o)
        | none => none

/-- Rest of the parse after the base-letter group: `extraFlats` is 1 for the
special contracted `as`/`es` tokens (which consume one extra implicit flat),
else 0.  Returns `(base_pitch_id, transposition)`. -/
def afterBase (idx : Nat) (extraFlats : Nat) (r : List Char) : Option (Int × Int) :=
  match parseAcc r with
  | some (t, o) => some ((o : Int) * 7 + idx, t - extraFlats)
  | none => none

/-- Base group `as|es|[a-g]` alternatives over an already-lowercased string,
first global success wins (regex alternatives are tried in order and the
first one that lets the rest of the pattern match is kept). -/
def parsePitchLower (s : List Char) : Option (Int × Int) :=
  match (match s with
         | c1 :: c2 :: r => if c1 = 'a' ∧ c2 = 's' then afterBase 5 1 r else none
         | _ => none) with
  | some v => some v
  | none =>
    match (match s with
           | c1 :: c2 :: r => if c1 = 'e' ∧ c2 = 's' then afterBase 2 1 r else none
           | _ => none) with
    | some v => some v
    | none =>
      match s with
      | c :: r =>
        match pitchLetterIdx c with
        | some idx => afterBase idx 0 r
        | none => none
      | [] => none

/-- `Pitch.parse_pitch_name`: returns `(base_pitch_id, transposition)` or
`None` for `ValueError("Invalid pitch name")`. -/
def parse_pitch_name (s : List Char) : Option (Int × Int) :=
  parsePitchLower (s.map Char.toLower)

/-- Accidental glyphs of `Pitch.name`: `'#' * transposition` when positive,
else `'b' * (-transposition)`. -/
def accidentalChars (t : Int) : List Char :=
  if 0 < t then List.replicate t.toNat '#' else List.replicate (-t).toNat 'b'

/-- Python `str` on a (possibly negative) integer. -/
def intRepr (n : Int) : List Char :=
  if n < 0 then '-' :: natRepr (-n).toNat else natRepr n.toNat

/-- `Pitch.name`: `pitch_class + accidentals + str(octave)`. -/
def pitchName (b t : Int) : List Char :=
  pitchClassChar b :: (accidentalChars t ++ intRepr (octaveOf b))

example : parse_pitch_name ['a', '4'] = some (33, 0) := by decide
example : parse_pitch_name ['a', 's', '4'] = some (33, -1) := by decide
example : parse_pitch_name ['A', 'b', '4'] = some (33, -1) := by decide
example : parse_pitch_name ['e', 's', 'e', 's', '4'] = some (30, -2) := by decide
example : parse_pitch_name ['b', 'i', 's', '3'] = some (27, 1) := by decide
example : parse_pitch_name ['c', 'i', 's', 'i', 's', '4'] = some (28, 2) := by decide
example : parse_pitch_name ['h', '4'] = none := by decide
example : parse_pitch_name ['c'] = none := by decide
example : parse_pitch_name ['c', '#', 'b', '4'] = none := by decide
example : pitchName 33 (-1) = ['a', 'b', '4'] := by decide
example : pitchName 28 2 = ['c', '#', '#', '4'] := by decide

/-! ## Interval: data model (`class Interval`, `src/musictheory.py`) -/

structure Interval where
  descending : Bool
  generic : Int
  transposition : Int
deriving DecidableEq

inductive IntervalErr
  | invalidName
  | invalidQuality
deriving DecidableEq

/-- `Interval.is_perfect_interval`: `generic % 7 in [0, 3, 4]`. -/
def is_perfect_interval (generic : Int) : Bool :=
  ([0, 3, 4] : List Int).contains (generic.fmod 7)

/-- The dict in `Interval.quality_to_transposition` (keys with the `'p'`
suffix are the perfect-family entries). -/
def qttTable : List (List Char × Int) :=
  [(['d', 'd'], -3), (['d'], -2), (['m'], -1), (['M'], 0), (['A'], 1), (['A', 'A'], 2),
   (['d', 'd', 'p'], -2), (['d', 'p'], -1), (['P', 'p'], 0), (['A', 'p'], 1), (['A', 'A', 'p'], 2)]

def lookupQtt (key : List Char) : List (List Char × Int) → Option Int
  | [] => none
  | e :: es => if key = e.1 then some e.2 else lookupQtt key es

/-- `Interval.quality_to_transposition`: appends `'p'` to the quality when the
interval is perfect, then looks the result up; `none` models the
`ValueError(... invalid quality ...)` raised on `KeyError`. -/
def quality_to_transposition (quality : List Char) (is_perfect : Bool) : Option Int :=
  lookupQtt (quality ++ (if is_perfect then ['p'] else [])) qttTable

/-! `Interval.NAME_REGEX` is `([+-]?)((?:d)*|(?:A)*|[PMm])([1-9][0-9]*)`,
matched with `re.match` (anchored at the start only — no `$`).  The
deterministic embedding below agrees with the backtracking regex:

* the optional sign can only help the match when taken if present, since no
  quality or digit character is `+`/`-`;
* for the quality group the alternatives are tried in order; backing off a
  greedy `d*`/`A*` run leaves a `d`/`A` (not a digit in `1-9`) at the start of
  the generic group, so only the full run can succeed, and when the input does
  not start with `d`/`A`/`P`/`M`/`m` the only possible capture is empty;
* `[1-9][0-9]*` is a greedy digit run whose first digit must be nonzero, with
  anything after it ignored (no end anchor). -/

def splitSign (s : List Char) : Bool × List Char :=
  match s with
  | c :: r => if c = '+' then (false, r) else if c = '-' then (true, r) else (false, c :: r)
  | [] => (false, [])

def splitQuality (r : List Char) : List Char × List Char :=
  match r with
  | c :: rest =>
    if c = 'd' then ((c :: rest).takeWhile (fun x => x = 'd'), (c :: rest).dropWhile (fun x => x = 'd'))
    else if c = 'A' then ((c :: rest).takeWhile (fun x => x = 'A'), (c :: rest).dropWhile (fun x => x = 'A'))
    else if c = 'P' ∨ c = 'M' ∨ c = 'm' then ([c], rest)
    else ([], c :: rest)
  | [] => ([], [])

/-- `Interval.parse_interval_name`: returns `(generic, transposition,
descending)`; `invalidName` models `ValueError("Invalid interval name")` and
`invalidQuality` the error raised by `quality_to_transposition`. -/
def parse_interval_name (s : List Char) : Except IntervalErr (Int × Int × Bool) :=
  let sr := splitSign s
  let qr := splitQuality sr.2
  let digits := qr.2.takeWhile isDigitCh
  match digits with
  | [] => .error .invalidName
  | c :: _ =>
    if c = '0' then .error .invalidName
    else
      let generic : Int := (digitsToNat digits : Int) - 1
      match quality_to_transposition qr.1 (is_perfect_interval generic) with
      | some t => .ok (generic, t, sr.1)
      | none => .error .invalidQuality

/-- Quality glyphs of `Interval.name` (`qm`/`qp` tables extended with repeated
`d`/`A` outside their range). -/
def intervalQuality (generic t : Int) : List Char :=
  if is_perfect_interval generic then
    if t = -1 then ['d'] else if t = 0 then ['P'] else if t = 1 then ['A']
    else if t < 0 then List.replicate (-t).toNat 'd' else List.replicate t.toNat 'A'
  else
    if t = -2 then ['d'] else if t = -1 then ['m'] else if t = 0 then ['M'] else if t = 1 then ['A']
    else if t < 0 then List.replicate ((-t).toNat - 1) 'd' else List.replicate t.toNat 'A'

/-- `Interval.name`: direction glyph (`+`/`-`), quality, `str(generic + 1)`. -/
def intervalNameChars (i : Interval) : List Char :=
  (if i.descending then '-' else '+') :: (intervalQuality i.generic i.transposition ++ intRepr (i.generic + 1))

/-- `Interval.__neg__`: duplicates the interval via `Interval(self.name)`
(`__copy__`) and flips `descending`; `none` models the `ValueError` escaping
when the name does not re-parse. -/
def negInterval (i : Interval) : Option Interval :=
  match parse_interval_name (intervalNameChars i) with
  | .ok (g, t, d) => some { descending := !d, generic := g, transposition := t }
  | .error _ => none

/-- `Interval.steps`: `size[generic % 7] + (generic // 7) * 12`. -/
def steps (i : Interval) : Int :=
  natSemitone.getD (i.generic.fmod 7).toNat 0 + (i.generic.fdiv 7) * 12

example : parse_interval_name ['P', '5'] = .ok (4, 0, false) := by decide
example : parse_interval_name ['-', 'm', '3'] = .ok (2, -1, true) := by decide
example : parse_interval_name ['M', '1', '0'] = .ok (9, 0, false) := by decide
example : parse_interval_name ['d', 'd', '7'] = .ok (6, -3, false) := by decide
example : parse_interval_name ['A', 'A', '4'] = .ok (3, 2, false) := by decide
example : parse_interval_name ['P', '2'] = .error .invalidQuality := by decide
example : parse_interval_name ['M', '5'] = .error .invalidQuality := by decide
example : parse_interval_name ['X', '3'] = .error .invalidName := by decide
example : parse_interval_name ['5'] = .error .invalidQuality := by decide
example : parse_interval_name ['P', '5', 'x'] = .ok (4, 0, false) := by decide
example : intervalNameChars ⟨false, 2, -1⟩ = ['+', 'm', '3'] := by decide
example : negInterval ⟨false, 2, -1⟩ = some ⟨true, 2, -1⟩ := by decide
example : negInterval ⟨false, 4, -3⟩ = none := by decide

/-! ## Pitch–Interval algebra -/

/-- `Interval.__init__` with `pitches=(from_pitch, to_pitch)`: normalizes the
pair with `__gt__` (recording `descending`), then `generic` is the difference
in `base_pitch_id` and `transposition` the difference between the actual
semitone distance and the natural size of that generic interval. -/
def intervalFromPitches (fromP toP : Pitch) : Interval :=
  let swap := pitchGtB fromP toP
  let f := if swap then toP else fromP
  let t := if swap then fromP else toP
  let g : Int := t.base_pitch_id - f.base_pitch_id
  { descending := swap, generic := g,
    transposition := (midi t - midi f) - (natSemitone.getD (g.fmod 7).toNat 0 + 12 * (g.fdiv 7)) }

/-- `Pitch.__sub__` with a `Pitch` operand: `Interval(pitches=(other, self))`. -/
def pitchSubPitch (a b : Pitch) : Interval := intervalFromPitches b a

/-- `Pitch.__add__` with an `Interval` operand: moves `base_pitch_id` by
`generic`, builds the natural pitch there, measures the interval from `self`
to it (`i = new_pitch - self`), and corrects the transposition. -/
def pitchAdd (p : Pitch) (other : Interval) : Pitch :=
  let new_base_pitch_id :=
    if other.descending then p.base_pitch_id - other.generic
    else p.base_pitch_id + other.generic
  let new_pitch : Pitch := { base_pitch_id := new_base_pitch_id, transposition := 0 }
  let i := intervalFromPitches p new_pitch
  let new_transposition :=
    if other.descending then other.transposition + i.transposition
    else other.transposition - i.transposition
  { base_pitch_id := new_base_pitch_id, transposition := new_transposition }

-- Doctests of `Pitch.__add__`: a4 + A3 = c##5, c4 + -P8 = c3, b#0 + -P8 = b#-1.
example : pitchAdd ⟨33, 0⟩ ⟨false, 2, 1⟩ = ⟨35, 2⟩ := by decide
example : pitchAdd ⟨28, 0⟩ ⟨true, 7, 0⟩ = ⟨21, 0⟩ := by decide
example : pitchAdd ⟨6, 1⟩ ⟨true, 7, 0⟩ = ⟨-1, 1⟩ := by decide

/-! ## MajorScale (`class MajorScale`) -/

/-- The names in `MajorScale.intervals = list(map(Interval, 'P1 M2 M3 P4 P5 M6 M7'.split()))`. -/
def majorScaleNames : List (List Char) :=
  [['P', '1'], ['M', '2'], ['M', '3'], ['P', '4'], ['P', '5'], ['M', '6'], ['M', '7']]

def majorScaleIntervals : List Interval :=
  majorScaleNames.filterMap fun s =>
    match parse_interval_name s with
    | .ok (g, t, d) => some { descending := d, generic := g, transposition := t }
    | .error _ => none

/-- `MajorScale.__init__`: `self.pitches`, built by appending
`start_pitch + interval` for each interval in order. -/
def majorScalePitches (start_pitch : Pitch) : List Pitch :=
  majorScaleIntervals.map fun i => pitchAdd start_pitch i

/-- `MajorScale.is_diatonic`: some scale pitch equals the given pitch with
`check_octave=False`. -/
def is_diatonic (start_pitch : Pitch) (pitch : Pitch) : Bool :=
  (majorScalePitches start_pitch).any fun p => pitchEquals pitch p false

example : majorScaleIntervals =
    [⟨false, 0, 0⟩, ⟨false, 1, 0⟩, ⟨false, 2, 0⟩, ⟨false, 3, 0⟩,
     ⟨false, 4, 0⟩, ⟨false, 5, 0⟩, ⟨false, 6, 0⟩] := by decide
-- Doctests of `MajorScale.is_diatonic`.
example : is_diatonic ⟨28, 0⟩ ⟨36, 0⟩ = true := by decide
example : is_diatonic ⟨6, 0⟩ ⟨54, 1⟩ = true := by decide
example : is_diatonic ⟨28, 0⟩ ⟨23, 1⟩ = false := by decide

/-! ## ProgressionGenerator (`src/composer.py`)

The pseudo-random source is abstracted as an oracle `g : Nat → Nat` together
with a counter of calls made so far; `random.choice` on a sequence of length
`n` consumes one oracle value and picks index `g k % n`, and
`random.randrange(3, 10)` consumes one oracle value and yields
`3 + g k % 7`.  Every index/threshold sequence the Python generator can see
is realizable by some oracle, and the claims quantify over all sources. -/

/-- A transition-table entry: a plain degree or a tied pair. -/
inductive Entry
  | single (n : Nat)
  | pair (a b : Nat)
deriving DecidableEq

/-- The `transitions` dict of `basic_chord_progression`. -/
def transitions : Nat → List Entry
  | 0 => [.single 1, .single 5]
  | 1 => [.single 3, .single 6, .pair 2 4, .pair 5 7]
  | 2 => [.single 4, .pair 5 7, .single 1]
  | 3 => [.single 6, .pair 2 4, .pair 5 7, .single 1]
  | 4 => [.single 2, .pair 5 7, .single 1]
  | 5 => [.single 7, .single 6, .single 1]
  | 6 => [.pair 2 4, .pair 5 7, .single 1]
  | 7 => [.single 5, .single 1]
  | _ => []

/-- `choose(choices)`: `random.choice` descends into the picked element until
it is no longer a sequence (`TypeError` on an `int`).  Returns the resolved
degree and the updated oracle counter. -/
def choose (g : Nat → Nat) (k : Nat) (choices : List Entry) : Nat × Nat :=
  match choices.getD (g k % choices.length) (.single 1) with
  | .single n => (n, k + 1)
  | .pair a b => (if g (k + 1) % 2 = 0 then a else b, k + 2)

/-- Half-cadence set of `basic_chord_progression` (`n % 2 == 0` branch). -/
def halfCadence : List Nat := [6, 2, 4, 1]

/-- Authentic-cadence set (`else` branch). -/
def authCadence : List Nat := [2, 4, 6, 1, 7]

/-- The inner `while True` loop of `basic_chord_progression`, for the phrase
with even/odd index `parityEven`.  The loop appends a resolved chord, then —
when the phrase length exceeds a freshly drawn `randrange(3,10)` threshold —
terminates iff the cadence condition holds.  `fuel` bounds the number of
iterations (the Python loop may diverge only in the sense of running forever;
`none` means the bound was hit). -/
def phraseLoop (g : Nat → Nat) : Nat → Bool → Nat → Nat → List Nat → Option (List Nat × Nat)
  | 0, _, _, _, _ => none
  | fuel + 1, parityEven, k, last, phrase =>
    let ck := choose g k (transitions last)
    let new_chord := ck.1
    let phrase1 := phrase ++ [new_chord]
    let thr := 3 + g ck.2 % 7
    let k2 := ck.2 + 1
    if thr < phrase1.length then
      if parityEven then
        if new_chord ∈ halfCadence then some (phrase1 ++ [5], k2)
        else phraseLoop g fuel parityEven k2 new_chord phrase1
      else
        if new_chord ∈ authCadence then some (phrase1 ++ [5, 1], k2)
        else phraseLoop g fuel parityEven k2 new_chord phrase1
    else phraseLoop g fuel parityEven k2 new_chord phrase1

/-- The `for n in range(phrases)` loop: each phrase starts with a resolution
from `transitions[0]` and runs `phraseLoop` with the parity of its index `n`. -/
def progLoop (g : Nat → Nat) (fuel : Nat) : Nat → Nat → Nat → Option (List (List Nat) × Nat)
  | 0, _, k => some ([], k)
  | m + 1, n, k =>
    let ck := choose g k (transitions 0)
    match phraseLoop g fuel (n % 2 = 0) ck.2 ck.1 [ck.1] with
    | none => none
    | some (ph, k2) =>
      match progLoop g fuel m (n + 1) k2 with
      | none => none
      | some (rest, k3) => some (ph :: rest, k3)

/-- `basic_chord_progression(key, phrases)` (the `key` argument is unused by
the generator itself). -/
def basic_chord_progression (g : Nat → Nat) (fuel phrases : Nat) : Option (List (List Nat)) :=
  (progLoop g fuel phrases 0 0).map (fun r => r.1)

example : basic_chord_progression (fun _ => 0) 20 1 = some [[1, 3, 6, 2, 5]] := by decide
example : basic_chord_progression (fun _ => 0) 20 2 =
    some [[1, 3, 6, 2, 5], [1, 3, 6, 2, 5, 1]] := by decide

/-! ## Helper lemmas about Pitch comparisons -/

theorem fmod7_bounds (b : Int) : 0 ≤ b.fmod 7 ∧ b.fmod 7 < 7 :=
  ⟨Int.fmod_nonneg' b (by norm_num), Int.fmod_lt_of_pos b (by norm_num)⟩

theorem lettersGetD_inj : ∀ i j : Fin 7,
    pitchLetters.getD i.val 'c' = pitchLetters.getD j.val 'c' → i = j := by decide

theorem pitchClassChar_eq_iff (b b' : Int) :
    pitchClassChar b = pitchClassChar b' ↔ b.fmod 7 = b'.fmod 7 := by
  constructor
  · intro h
    obtain ⟨h1, h2⟩ := fmod7_bounds b
    obtain ⟨h1', h2'⟩ := fmod7_bounds b'
    have hi : (b.fmod 7).toNat < 7 := by omega
    have hj : (b'.fmod 7).toNat < 7 := by omega
    have := lettersGetD_inj ⟨(b.fmod 7).toNat, hi⟩ ⟨(b'.fmod 7).toNat, hj⟩ (by
      simpa [pitchClassChar] using h)
    have : (b.fmod 7).toNat = (b'.fmod 7).toNat := congrArg Fin.val this
    omega
  · intro h; simp [pitchClassChar, h]

/-- Spelling equality (`__eq__`) is equality of the two stored slots. -/
theorem pitchEqB_true_iff (p q : Pitch) : pitchEqB p q = true ↔ p = q := by
  constructor
  · intro h
    simp only [pitchEqB, pitchEquals, Bool.and_eq_true, Bool.or_eq_true, beq_iff_eq,
      Bool.not_true] at h
    obtain ⟨⟨hclass, htr⟩, hoct⟩ := h
    have hoct' : octaveOf p.base_pitch_id = octaveOf q.base_pitch_id := by
      rcases hoct with h | h
      · exact h
      · cases h
    have hmod : p.base_pitch_id.fmod 7 = q.base_pitch_id.fmod 7 :=
      (pitchClassChar_eq_iff _ _).mp hclass
    have hp := Int.fmod_add_fdiv p.base_pitch_id 7
    have hq := Int.fmod_add_fdiv q.base_pitch_id 7
    have hbase : p.base_pitch_id = q.base_pitch_id := by
      simp only [octaveOf] at hoct'
      omega
    cases p; cases q
    simp_all
  · intro h
    subst h
    simp [pitchEqB, pitchEquals]

theorem pitchEqB_midi {p q : Pitch} (h : pitchEqB p q = true) : midi p = midi q := by
  rw [(pitchEqB_true_iff p q).mp h]

theorem pitchEqB_false_of_midi_ne {p q : Pitch} (h : midi p ≠ midi q) :
    pitchEqB p q = false := by
  cases hh : pitchEqB p q
  · rfl
  · exact absurd (pitchEqB_midi hh) h

theorem pitchGtB_eq_of_midi_lt {p q : Pitch} (h : midi q < midi p) : pitchGtB p q = true := by
  have he : pitchEqB p q = false := pitchEqB_false_of_midi_ne (by omega)
  simp [pitchGtB, pitchLeB, pitchLtB, he, decide_eq_true_eq]
  omega

theorem pitchGtB_eq_of_midi_gt {p q : Pitch} (h : midi p < midi q) : pitchGtB p q = false := by
  simp [pitchGtB, pitchLeB, pitchLtB]
  intro hc
  omega
/-! ## Claims -/

/-- C1: the claimed round-trip `(p + i) - p = i` (same generic and quality)
fails on the code for descending intervals with nonzero quality offset.  At
`p = Pitch('c4')` (base 28) and `i = Interval('-m3')` (descending, generic 2,
transposition −1), `p + i` is `Pitch('abb3')` — five semitones below `c4`
instead of three — and `(p + i) - p` is a descending augmented third
(transposition +1), not the requested minor third: the `descending` branch of
`Pitch.__add__` adds the measured correction instead of subtracting it. -/
theorem c1_add_descending_quality_bug :
    parse_pitch_name ['c', '4'] = some (28, 0) ∧
    parse_interval_name ['-', 'm', '3'] = .ok (2, -1, true) ∧
    pitchAdd ⟨28, 0⟩ ⟨true, 2, -1⟩ = ⟨26, -2⟩ ∧
    midi (⟨28, 0⟩ : Pitch) = 60 ∧ midi (⟨26, -2⟩ : Pitch) = 55 ∧
    pitchSubPitch (pitchAdd ⟨28, 0⟩ ⟨true, 2, -1⟩) ⟨28, 0⟩ = ⟨true, 2, 1⟩ ∧
    (⟨true, 2, 1⟩ : Interval).transposition ≠ (⟨true, 2, -1⟩ : Interval).transposition := by
  decide

/-- C3: the claimed invariant `pitches[0] == tonic` for every tonic fails for
sharped tonics: for `tonic = Pitch('cis4')` (base 28, transposition +1) the
first scale pitch `tonic + P1` is `Pitch('ces4')` (transposition −1), which is
not spelling-equal to the tonic; for the flat and natural spellings the
invariant does hold, so the sharp case is a slip in `Pitch.__add__`'s
transposition correction (the measured unison interval is normalized to the
swapped pitch order and its sign is applied backwards). -/
theorem c3_sharp_tonic_scale_bug :
    parse_pitch_name ['c', 'i', 's', '4'] = some (28, 1) ∧
    (majorScalePitches ⟨28, 1⟩).head? = some ⟨28, -1⟩ ∧
    pitchEqB ⟨28, -1⟩ ⟨28, 1⟩ = false ∧
    (majorScalePitches ⟨28, 0⟩).head? = some ⟨28, 0⟩ ∧
    (majorScalePitches ⟨28, -1⟩).head? = some ⟨28, -1⟩ := by
  decide

/-- C8 (counterexample): `Pitch('a4') - Pitch('c4')` does not have the generic
size of a third (which would be `generic = 2`): `c4` (base 28) up to `a4`
(base 33) spans 5 letter steps, a sixth. -/
theorem c8_counterexample :
    (pitchSubPitch ⟨33, 0⟩ ⟨28, 0⟩).generic ≠ 2 := by decide

/-- C8 (amended): `Pitch('a4') - Pitch('c4')` is a major SIXTH ascending
(generic 5, transposition 0, descending false, named `+M6`), and
`Pitch('c4') - Pitch('a4')` is the same interval with `descending = true`. -/
theorem c8_major_sixth :
    parse_pitch_name ['a', '4'] = some (33, 0) ∧
    parse_pitch_name ['c', '4'] = some (28, 0) ∧
    pitchSubPitch ⟨33, 0⟩ ⟨28, 0⟩ = ⟨false, 5, 0⟩ ∧
    pitchSubPitch ⟨28, 0⟩ ⟨33, 0⟩ = ⟨true, 5, 0⟩ ∧
    intervalNameChars ⟨false, 5, 0⟩ = ['+', 'M', '6'] ∧
    intervalNameChars ⟨true, 5, 0⟩ = ['-', 'M', '6'] := by
  decide

/-- C10: `__eq__` compares spelling while `__ne__` compares `midi` only, so
for two enharmonically equal but differently spelled pitches both `a == b`
and `a != b` are false. -/
theorem c10_eq_ne_not_complementary (p q : Pitch) (hm : midi p = midi q) (hne : p ≠ q) :
    pitchEqB p q = false ∧ pitchNeB p q = false := by
  constructor
  · cases hh : pitchEqB p q
    · rfl
    · exact absurd ((pitchEqB_true_iff p q).mp hh) hne
  · simp [pitchNeB, hm]

/-- C10 witness: `Pitch('c4')` and `Pitch('bis3')`. -/
theorem c10_witness :
    pitchEqB ⟨28, 0⟩ ⟨27, 1⟩ = false ∧ pitchNeB ⟨28, 0⟩ ⟨27, 1⟩ = false :=
  c10_eq_ne_not_complementary ⟨28, 0⟩ ⟨27, 1⟩ (by decide) (by decide)

/-- C2 (counterexample): for the enharmonically equal but differently spelled
pair `a = Pitch('c4')`, `b = Pitch('bis3')` (equal `midi` 60), `a - b` and
`b - a` do NOT agree in generic or transposition and both come out
descending; moreover `(a - b).generic = -1 < 0`.  (Both orderings swap the
operands because `__gt__` is `not (midi-less or spelling-equal)`.) -/
theorem c2_counterexample :
    midi (⟨28, 0⟩ : Pitch) = midi (⟨27, 1⟩ : Pitch) ∧
    pitchSubPitch ⟨28, 0⟩ ⟨27, 1⟩ = ⟨true, -1, 1⟩ ∧
    pitchSubPitch ⟨27, 1⟩ ⟨28, 0⟩ = ⟨true, 1, -2⟩ ∧
    (pitchSubPitch ⟨28, 0⟩ ⟨27, 1⟩).generic < 0 := by
  decide

/-- C2 (amended): for pitches of distinct actual height (`midi`), `a - b` and
`b - a` have identical generic size and identical transposition and differ
exactly in the `descending` flag, which is determined by `midi` comparison.
(The claim's "generic ≥ 0" and its extension to equal-`midi` differently
spelled pairs are dropped: they fail, see the counterexample.) -/
theorem c2_sub_direction_normalization (a b : Pitch) (h : midi a ≠ midi b) :
    (pitchSubPitch a b).generic = (pitchSubPitch b a).generic ∧
    (pitchSubPitch a b).transposition = (pitchSubPitch b a).transposition ∧
    (pitchSubPitch a b).descending = decide (midi a < midi b) ∧
    (pitchSubPitch b a).descending = decide (midi b < midi a) := by
  rcases lt_or_gt_of_ne h with hlt | hgt
  · have h1 : pitchGtB b a = true := pitchGtB_eq_of_midi_lt hlt
    have h2 : pitchGtB a b = false := pitchGtB_eq_of_midi_gt hlt
    simp [pitchSubPitch, intervalFromPitches, h1, h2, hlt, not_lt_of_gt hlt]
  · have h1 : pitchGtB b a = false := pitchGtB_eq_of_midi_gt hgt
    have h2 : pitchGtB a b = true := pitchGtB_eq_of_midi_lt hgt
    simp [pitchSubPitch, intervalFromPitches, h1, h2, hgt, not_lt_of_gt hgt]

/-- C2 witness: `ces4` (base 28, −1) and `bis3` (base 27, +1), of distinct
heights 59 and 60. -/
theorem c2_witness :
    (pitchSubPitch ⟨28, -1⟩ ⟨27, 1⟩).generic = (pitchSubPitch ⟨27, 1⟩ ⟨28, -1⟩).generic ∧
    (pitchSubPitch ⟨28, -1⟩ ⟨27, 1⟩).transposition =
      (pitchSubPitch ⟨27, 1⟩ ⟨28, -1⟩).transposition ∧
    (pitchSubPitch ⟨28, -1⟩ ⟨27, 1⟩).descending =
      decide (midi (⟨28, -1⟩ : Pitch) < midi (⟨27, 1⟩ : Pitch)) ∧
    (pitchSubPitch ⟨27, 1⟩ ⟨28, -1⟩).descending =
      decide (midi (⟨27, 1⟩ : Pitch) < midi (⟨28, -1⟩ : Pitch)) :=
  c2_sub_direction_normalization ⟨28, -1⟩ ⟨27, 1⟩ (by decide)
/-- C5 (counterexample): a triple-diminished quality does not extend the
table linearly — the dict lookup fails (raising `ValueError`) instead of
yielding −4 (imperfect) or −3 (perfect). -/
theorem c5_counterexample :
    quality_to_transposition ['d', 'd', 'd'] false = none ∧
    quality_to_transposition ['d', 'd', 'd'] true = none := by decide

theorem lookupQtt_none (key : List Char) :
    ∀ tbl : List (List Char × Int), (∀ e ∈ tbl, key ≠ e.1) → lookupQtt key tbl = none := by
  intro tbl
  induction tbl with
  | nil => intro _; rfl
  | cons e es ih =>
    intro h
    rw [lookupQtt, if_neg (h e (List.mem_cons_self e es))]
    exact ih fun x hx => h x (List.mem_cons_of_mem e hx)

/-- C5 (amended): the two family tables are exactly as listed, but a quality
of three or more repeated `d`/`A` letters is NOT extended linearly: the
lookup fails for every such key (modelling the `InvalidIntervalQuality`
`ValueError`). -/
theorem c5_quality_table :
    (quality_to_transposition ['d', 'd'] true = some (-2) ∧
     quality_to_transposition ['d'] true = some (-1) ∧
     quality_to_transposition ['P'] true = some 0 ∧
     quality_to_transposition ['A'] true = some 1 ∧
     quality_to_transposition ['A', 'A'] true = some 2 ∧
     quality_to_transposition ['d', 'd'] false = some (-3) ∧
     quality_to_transposition ['d'] false = some (-2) ∧
     quality_to_transposition ['m'] false = some (-1) ∧
     quality_to_transposition ['M'] false = some 0 ∧
     quality_to_transposition ['A'] false = some 1 ∧
     quality_to_transposition ['A', 'A'] false = some 2) ∧
    (∀ (k : Nat) (b : Bool), 3 ≤ k →
      quality_to_transposition (List.replicate k 'd') b = none ∧
      quality_to_transposition (List.replicate k 'A') b = none) := by
  refine ⟨by decide, ?_⟩
  intro k b hk
  rcases Nat.lt_or_ge k 4 with h4 | h4
  · have hk3 : k = 3 := by omega
    subst hk3
    cases b <;> exact ⟨by decide, by decide⟩
  · constructor <;>
    · rw [quality_to_transposition]
      apply lookupQtt_none
      intro e he hEq
      have hlen := congrArg List.length hEq
      cases b <;> fin_cases he <;> simp at hlen <;> omega

/-- C5 witness for the beyond-the-table clause, at `k = 4`. -/
theorem c5_witness :
    quality_to_transposition (List.replicate 4 'd') true = none ∧
    quality_to_transposition (List.replicate 4 'A') true = none :=
  c5_quality_table.2 4 true (by decide)
/-- C4 (counterexample): the triply-diminished fifth reachable from the pitch
pair `(bis4, fes5)` has transposition −3; its name is `+ddd5`, which does not
re-parse, so `__neg__` (which copies via the name) raises instead of flipping
`descending`. -/
theorem c4_counterexample :
    intervalFromPitches ⟨34, 1⟩ ⟨38, -1⟩ = ⟨false, 4, -3⟩ ∧
    intervalNameChars ⟨false, 4, -3⟩ = ['+', 'd', 'd', 'd', '5'] ∧
    negInterval ⟨false, 4, -3⟩ = none := by decide

theorem digit_not_letter {c : Char} (h : isDigitCh c = true) :
    c ≠ 'd' ∧ c ≠ 'A' ∧ c ≠ 'P' ∧ c ≠ 'M' ∧ c ≠ 'm' := by
  refine ⟨?_, ?_, ?_, ?_, ?_⟩ <;> (intro hc; subst hc; exact absurd h (by decide))

theorem take_drop_run (ch : Char) (q : List Char)
    (hall : q.all (fun x => x = ch) = true) (c : Char) (cs : List Char) (hc : ¬(c = ch)) :
    (q ++ c :: cs).takeWhile (fun x => x = ch) = q ∧
    (q ++ c :: cs).dropWhile (fun x => x = ch) = c :: cs := by
  constructor
  · rw [takeWhile_append_of_all q (c :: cs) hall]
    simp [List.takeWhile_cons, hc]
  · rw [dropWhile_append_of_all q (c :: cs) hall]
    simp [List.dropWhile_cons, hc]

theorem splitQuality_run (q : List Char) (ch : Char) (hch : ch = 'd' ∨ ch = 'A')
    (hq : q ≠ []) (hall : q.all (fun x => x = ch) = true) (digits : List Char)
    (hne : digits ≠ []) (hdig : digits.all isDigitCh = true) :
    splitQuality (q ++ digits) = (q, digits) := by
  obtain ⟨c, cs, rfl⟩ : ∃ c cs, digits = c :: cs := by
    cases digits with
    | nil => exact absurd rfl hne
    | cons c cs => exact ⟨c, cs, rfl⟩
  have hcdig : isDigitCh c = true := by
    simp only [List.all_cons, Bool.and_eq_true] at hdig
    exact hdig.1
  have hcd := digit_not_letter hcdig
  obtain ⟨x, q', rfl⟩ : ∃ x q', q = x :: q' := by
    cases q with
    | nil => exact absurd rfl hq
    | cons x q' => exact ⟨x, q', rfl⟩
  rcases hch with rfl | rfl
  · have hx : x = 'd' := by
      simp only [List.all_cons, Bool.and_eq_true, decide_eq_true_eq] at hall
      exact hall.1
    subst hx
    obtain ⟨htake, hdrop⟩ :=
      take_drop_run 'd' ('d' :: q') hall c cs hcd.1
    simp only [splitQuality, List.cons_append, if_pos rfl]
    rw [← List.cons_append, htake, hdrop]
    simp
  · have hx : x = 'A' := by
      simp only [List.all_cons, Bool.and_eq_true, decide_eq_true_eq] at hall
      exact hall.1
    subst hx
    obtain ⟨htake, hdrop⟩ :=
      take_drop_run 'A' ('A' :: q') hall c cs hcd.2.1
    have hAd : ¬('A' = 'd') := by decide
    simp only [splitQuality, List.cons_append, if_neg hAd, if_pos rfl]
    rw [← List.cons_append, htake, hdrop]
    simp

theorem splitQuality_single (c : Char) (hc : c = 'P' ∨ c = 'M' ∨ c = 'm')
    (digits : List Char) : splitQuality (c :: digits) = ([c], digits) := by
  have h1 : ¬(c = 'd') := by rcases hc with rfl | rfl | rfl <;> decide
  have h2 : ¬(c = 'A') := by rcases hc with rfl | rfl | rfl <;> decide
  simp [splitQuality, h1, h2, hc]

/-- Core of the negation round trip: if the quality glyphs of `(g, t)` are
`qual`, `qual` splits off cleanly in front of any digit run, and `qual` looks
back up to `t`, then `__neg__` succeeds and only flips `descending`. -/
theorem negInterval_of_quality (d : Bool) (g t : Int) (hg : 0 ≤ g) (qual : List Char)
    (hq : intervalQuality g t = qual)
    (hsplit : ∀ digits : List Char, digits ≠ [] → digits.all isDigitCh = true →
      splitQuality (qual ++ digits) = (qual, digits))
    (hqtt : quality_to_transposition qual (is_perfect_interval g) = some t) :
    negInterval ⟨d, g, t⟩ = some ⟨!d, g, t⟩ := by
  obtain ⟨c, cs, hrep, hc0, hdig, hval⟩ := natRepr_spec (g + 1).toNat (by omega)
  have hint : intRepr (g + 1) = c :: cs := by
    rw [intRepr, if_neg (by omega), hrep]
  have hname : intervalNameChars ⟨d, g, t⟩ =
      (if d then '-' else '+') :: (qual ++ (c :: cs)) := by
    simp [intervalNameChars, hq, hint]
  have hsign : splitSign ((if d then '-' else '+') :: (qual ++ (c :: cs))) =
      (d, qual ++ (c :: cs)) := by
    cases d <;> simp [splitSign]
  have hqr : splitQuality (qual ++ (c :: cs)) = (qual, c :: cs) :=
    hsplit (c :: cs) (by simp) hdig
  have hdigits : (c :: cs).takeWhile isDigitCh = c :: cs :=
    takeWhile_eq_self_of_all _ hdig
  have hgen : (digitsToNat (c :: cs) : Int) - 1 = g := by
    rw [hval]
    omega
  rw [negInterval, parse_interval_name, hname, hsign]
  simp only [hqr, hdigits, if_neg hc0, hgen, hqtt]

/-- C4 (amended): negation succeeds — flipping `descending` and preserving
`generic` and `transposition` — exactly on the intervals whose quality is
representable in the name tables (perfect generic: transposition in
`[-2, 2]`; imperfect: in `[-3, 2]`), with nonneg generic; outside that range
(reachable from pitch pairs, see the counterexample) the name does not
re-parse and negation raises. -/
theorem c4_negate_within_named_range (d : Bool) (g t : Int) (hg : 0 ≤ g)
    (ht : if is_perfect_interval g then -2 ≤ t ∧ t ≤ 2 else -3 ≤ t ∧ t ≤ 2) :
    negInterval ⟨d, g, t⟩ = some ⟨!d, g, t⟩ := by
  cases hperf : is_perfect_interval g with
  | true =>
    rw [if_pos (by rw [hperf])] at ht
    obtain ⟨h1, h2⟩ := ht
    have hd : ∀ q : List Char, q ≠ [] → q.all (fun x => x = 'd') = true →
        (∀ digits : List Char, digits ≠ [] → digits.all isDigitCh = true →
          splitQuality (q ++ digits) = (q, digits)) :=
      fun q hq hall digits hne hdig => splitQuality_run q 'd' (Or.inl rfl) hq hall digits hne hdig
    have hA : ∀ q : List Char, q ≠ [] → q.all (fun x => x = 'A') = true →
        (∀ digits : List Char, digits ≠ [] → digits.all isDigitCh = true →
          splitQuality (q ++ digits) = (q, digits)) :=
      fun q hq hall digits hne hdig => splitQuality_run q 'A' (Or.inr rfl) hq hall digits hne hdig
    interval_cases t
    · exact negInterval_of_quality d g (-2) hg ['d', 'd']
        (by simp [intervalQuality, hperf])
        (hd ['d', 'd'] (by simp) (by decide)) (by rw [hperf]; decide)
    · exact negInterval_of_quality d g (-1) hg ['d']
        (by simp [intervalQuality, hperf])
        (hd ['d'] (by simp) (by decide)) (by rw [hperf]; decide)
    · exact negInterval_of_quality d g 0 hg ['P']
        (by simp [intervalQuality, hperf])
        (fun digits _ _ => splitQuality_single 'P' (Or.inl rfl) digits)
        (by rw [hperf]; decide)
    · exact negInterval_of_quality d g 1 hg ['A']
        (by simp [intervalQuality, hperf])
        (hA ['A'] (by simp) (by decide)) (by rw [hperf]; decide)
    · exact negInterval_of_quality d g 2 hg ['A', 'A']
        (by simp [intervalQuality, hperf])
        (hA ['A', 'A'] (by simp) (by decide)) (by rw [hperf]; decide)
  | false =>
    rw [if_neg (by rw [hperf]; exact Bool.false_ne_true)] at ht
    obtain ⟨h1, h2⟩ := ht
    have hd : ∀ q : List Char, q ≠ [] → q.all (fun x => x = 'd') = true →
        (∀ digits : List Char, digits ≠ [] → digits.all isDigitCh = true →
          splitQuality (q ++ digits) = (q, digits)) :=
      fun q hq hall digits hne hdig => splitQuality_run q 'd' (Or.inl rfl) hq hall digits hne hdig
    have hA : ∀ q : List Char, q ≠ [] → q.all (fun x => x = 'A') = true →
        (∀ digits : List Char, digits ≠ [] → digits.all isDigitCh = true →
          splitQuality (q ++ digits) = (q, digits)) :=
      fun q hq hall digits hne hdig => splitQuality_run q 'A' (Or.inr rfl) hq hall digits hne hdig
    interval_cases t
    · exact negInterval_of_quality d g (-3) hg ['d', 'd']
        (by simp [intervalQuality, hperf])
        (hd ['d', 'd'] (by simp) (by decide)) (by rw [hperf]; decide)
    · exact negInterval_of_quality d g (-2) hg ['d']
        (by simp [intervalQuality, hperf])
        (hd ['d'] (by simp) (by decide)) (by rw [hperf]; decide)
    · exact negInterval_of_quality d g (-1) hg ['m']
        (by simp [intervalQuality, hperf])
        (fun digits _ _ => splitQuality_single 'm' (Or.inr (Or.inr rfl)) digits)
        (by rw [hperf]; decide)
    · exact negInterval_of_quality d g 0 hg ['M']
        (by simp [intervalQuality, hperf])
        (fun digits _ _ => splitQuality_single 'M' (Or.inr (Or.inl rfl)) digits)
        (by rw [hperf]; decide)
    · exact negInterval_of_quality d g 1 hg ['A']
        (by simp [intervalQuality, hperf])
        (hA ['A'] (by simp) (by decide)) (by rw [hperf]; decide)
    · exact negInterval_of_quality d g 2 hg ['A', 'A']
        (by simp [intervalQuality, hperf])
        (hA ['A', 'A'] (by simp) (by decide)) (by rw [hperf]; decide)

/-- C4 witness: negating a doubly-diminished fifth (perfect family, in
range). -/
theorem c4_witness : negInterval ⟨false, 4, -2⟩ = some ⟨true, 4, -2⟩ :=
  c4_negate_within_named_range false 4 (-2) (by decide) (by decide)
/-- C6 (counterexample): `re.match` has no end anchor, so trailing garbage
after the generic size IS accepted — `Interval('P5x')` succeeds as a
perfect fifth rather than raising `InvalidIntervalName`. -/
theorem c6_counterexample :
    parse_interval_name ['P', '5', 'x'] = .ok (4, 0, false) := by decide

theorem splitSign_append (c : Char) (cs t : List Char) (n : Bool) (r : List Char)
    (h : splitSign (c :: cs) = (n, r)) : splitSign ((c :: cs) ++ t) = (n, r ++ t) := by
  simp only [splitSign, List.cons_append] at h ⊢
  split_ifs at h ⊢ <;>
    (injection h with h1 h2; subst h1; subst h2; simp)

theorem splitQuality_cons (c : Char) (rest : List Char) :
    splitQuality (c :: rest) =
      (if c = 'd' then
        ((c :: rest).takeWhile (fun x => x = 'd'), (c :: rest).dropWhile (fun x => x = 'd'))
       else if c = 'A' then
        ((c :: rest).takeWhile (fun x => x = 'A'), (c :: rest).dropWhile (fun x => x = 'A'))
       else if c = 'P' ∨ c = 'M' ∨ c = 'm' then ([c], rest)
       else ([], c :: rest)) := rfl

theorem splitQuality_append (c : Char) (rest t : List Char) (q r2 : List Char)
    (h : splitQuality (c :: rest) = (q, r2)) (hne : r2 ≠ []) :
    splitQuality ((c :: rest) ++ t) = (q, r2 ++ t) := by
  rw [List.cons_append, splitQuality_cons]
  by_cases hd : c = 'd'
  · subst hd
    rw [if_pos rfl]
    rw [splitQuality_cons, if_pos rfl] at h
    injection h with h1 h2
    subst h1; subst h2
    rw [← List.cons_append, takeWhile_append_of_drop_ne _ t hne,
      dropWhile_append_of_drop_ne _ t hne]
  · rw [if_neg hd]
    rw [splitQuality_cons, if_neg hd] at h
    by_cases hA : c = 'A'
    · subst hA
      rw [if_pos rfl]
      rw [if_pos rfl] at h
      injection h with h1 h2
      subst h1; subst h2
      rw [← List.cons_append, takeWhile_append_of_drop_ne _ t hne,
        dropWhile_append_of_drop_ne _ t hne]
    · rw [if_neg hA]
      rw [if_neg hA] at h
      by_cases hP : c = 'P' ∨ c = 'M' ∨ c = 'm'
      · rw [if_pos hP]
        rw [if_pos hP] at h
        injection h with h1 h2
        subst h1; subst h2
        rfl
      · rw [if_neg hP]
        rw [if_neg hP] at h
        injection h with h1 h2
        subst h1; subst h2
        rw [← List.cons_append]

theorem all_of_dropWhile_nil {p : Char → Bool} :
    ∀ xs : List Char, xs.dropWhile p = [] → xs.all p = true := by
  intro xs
  induction xs with
  | nil => intro _; rfl
  | cons x xs ih =>
    intro h
    by_cases hx : p x
    · simp only [List.dropWhile_cons, hx, if_true] at h
      simp [hx, ih h]
    · simp [List.dropWhile_cons, hx] at h

theorem takeWhile_digits_append (r2 t : List Char)
    (ht : ∀ c, t.head? = some c → isDigitCh c = false) :
    (r2 ++ t).takeWhile isDigitCh = r2.takeWhile isDigitCh := by
  cases hdw : r2.dropWhile isDigitCh with
  | nil =>
    have hall := all_of_dropWhile_nil r2 hdw
    have htw : t.takeWhile isDigitCh = [] := by
      cases t with
      | nil => rfl
      | cons c' ts => simp [List.takeWhile_cons, ht c' rfl]
    rw [takeWhile_append_of_all r2 t hall, htw, List.append_nil,
      takeWhile_eq_self_of_all r2 hall]
  | cons a as => exact takeWhile_append_of_drop_ne r2 t (by rw [hdw]; simp)

/-- C6 (amended): interval-name matching is anchored at the start only.  A
parse that succeeds is untouched by appending any text that does not extend
the greedy digit run (first appended character not a digit); the string is
rejected with `InvalidIntervalName` only when no prefix matches the pattern
(e.g. `X3`), and with `InvalidIntervalQuality` when the (possibly empty)
quality letters are invalid for the generic class (e.g. `P2`, or a bare `5`
whose quality is empty). -/
theorem c6_parse_unanchored :
    (∀ (s t : List Char) (v : Int × Int × Bool), parse_interval_name s = .ok v →
      (∀ c, t.head? = some c → isDigitCh c = false) →
      parse_interval_name (s ++ t) = .ok v) ∧
    parse_interval_name ['X', '3'] = .error .invalidName ∧
    parse_interval_name ['P', '2'] = .error .invalidQuality ∧
    parse_interval_name ['5'] = .error .invalidQuality := by
  refine ⟨?_, by decide, by decide, by decide⟩
  intro s t v hok ht
  cases s with
  | nil =>
    rw [show parse_interval_name [] = Except.error .invalidName from rfl] at hok
    exact Except.noConfusion hok
  | cons c cs =>
    obtain ⟨n, r, hsr⟩ : ∃ n r, splitSign (c :: cs) = (n, r) := ⟨_, _, rfl⟩
    obtain ⟨q, r2, hqr⟩ : ∃ q r2, splitQuality r = (q, r2) := ⟨_, _, rfl⟩
    simp only [parse_interval_name, hsr, hqr] at hok
    have hdne : r2.takeWhile isDigitCh ≠ [] := by
      intro h0
      rw [h0] at hok
      simp at hok
    have hr2ne : r2 ≠ [] := by
      intro h0
      exact hdne (by rw [h0]; rfl)
    have hrne : r ≠ [] := by
      intro h0
      subst h0
      rw [show splitQuality [] = ([], []) from rfl] at hqr
      injection hqr with h1 h2
      exact hr2ne h2.symm
    obtain ⟨c', rest', rfl⟩ : ∃ c' rest', r = c' :: rest' := by
      cases r with
      | nil => exact absurd rfl hrne
      | cons c' rest' => exact ⟨c', rest', rfl⟩
    have h1 : splitSign ((c :: cs) ++ t) = (n, (c' :: rest') ++ t) :=
      splitSign_append c cs t n _ hsr
    have h2 : splitQuality ((c' :: rest') ++ t) = (q, r2 ++ t) :=
      splitQuality_append c' rest' t q r2 hqr hr2ne
    have h3 : (r2 ++ t).takeWhile isDigitCh = r2.takeWhile isDigitCh :=
      takeWhile_digits_append r2 t ht
    simp only [parse_interval_name, h1, h2, h3]
    exact hok

/-- C6 witness: appending `x` to the accepted `P5`. -/
theorem c6_witness : parse_interval_name (['P', '5'] ++ ['x']) = .ok (4, 0, false) :=
  c6_parse_unanchored.1 ['P', '5'] ['x'] (4, 0, false) (by decide)
    (fun c hc => by cases hc; decide)
/-- Invariant of the inner phrase loop: a phrase that terminates ends in the
cadence tail demanded by its parity, the chord before the cadence tail
satisfies the cadence set, and at the moment of termination the phrase length
(before the tail) exceeded a threshold drawn from `{3, ..., 9}`. -/
theorem phraseLoop_spec (g : Nat → Nat) :
    ∀ (fuel : Nat) (pe : Bool) (k last : Nat) (phrase ph : List Nat) (k2 : Nat),
      phraseLoop g fuel pe k last phrase = some (ph, k2) →
      ∃ thr mid c, 3 ≤ thr ∧ thr ≤ 9 ∧ thr < (phrase ++ mid ++ [c]).length ∧
        (if pe then ph = phrase ++ mid ++ [c, 5] ∧ c ∈ halfCadence
         else ph = phrase ++ mid ++ [c, 5, 1] ∧ c ∈ authCadence) := by
  intro fuel
  induction fuel with
  | zero =>
    intro pe k last phrase ph k2 h
    exact absurd h (by simp [phraseLoop])
  | succ fuel ih =>
    intro pe k last phrase ph k2 h
    simp only [phraseLoop] at h
    split at h
    · -- threshold exceeded
      rename_i hlen
      split at h
      · -- even phrase: half cadence check
        rename_i hpe
        split at h
        · rename_i hmem
          rw [Option.some.injEq, Prod.mk.injEq] at h
          obtain ⟨hph, _⟩ := h
          refine ⟨3 + g (choose g k (transitions last)).2 % 7, [],
            (choose g k (transitions last)).1, by omega, by omega, ?_, ?_⟩
          · simpa using hlen
          · rw [if_pos hpe]
            exact ⟨by rw [← hph]; simp, hmem⟩
        · obtain ⟨thr, mid, c, h3, h9, hl, hco⟩ :=
            ih pe _ _ (phrase ++ [(choose g k (transitions last)).1]) ph k2 h
          refine ⟨thr, (choose g k (transitions last)).1 :: mid, c, h3, h9, ?_, ?_⟩
          · simpa [List.append_assoc] using hl
          · rw [if_pos hpe] at hco ⊢
            exact ⟨by rw [hco.1]; simp, hco.2⟩
      · -- odd phrase: authentic cadence check
        rename_i hpe
        have hpe' : pe = false := by
          cases pe
          · rfl
          · exact absurd rfl hpe
        split at h
        · rename_i hmem
          rw [Option.some.injEq, Prod.mk.injEq] at h
          obtain ⟨hph, _⟩ := h
          refine ⟨3 + g (choose g k (transitions last)).2 % 7, [],
            (choose g k (transitions last)).1, by omega, by omega, ?_, ?_⟩
          · simpa using hlen
          · rw [hpe']
            simp only [if_neg Bool.false_ne_true]
            exact ⟨by rw [← hph]; simp, hmem⟩
        · obtain ⟨thr, mid, c, h3, h9, hl, hco⟩ :=
            ih pe _ _ (phrase ++ [(choose g k (transitions last)).1]) ph k2 h
          refine ⟨thr, (choose g k (transitions last)).1 :: mid, c, h3, h9, ?_, ?_⟩
          · simpa [List.append_assoc] using hl
          · rw [hpe'] at hco ⊢
            simp only [if_neg Bool.false_ne_true] at hco ⊢
            exact ⟨by rw [hco.1]; simp, hco.2⟩
    · -- threshold not exceeded: keep walking
      obtain ⟨thr, mid, c, h3, h9, hl, hco⟩ :=
        ih pe _ _ (phrase ++ [(choose g k (transitions last)).1]) ph k2 h
      refine ⟨thr, (choose g k (transitions last)).1 :: mid, c, h3, h9, ?_, ?_⟩
      · simpa [List.append_assoc] using hl
      · cases pe
        · simp only [if_neg Bool.false_ne_true] at hco ⊢
          exact ⟨by rw [hco.1]; simp, hco.2⟩
        · rw [if_pos rfl] at hco ⊢
          exact ⟨by rw [hco.1]; simp, hco.2⟩
/-- Lifts the phrase invariant through the `for n in range(phrases)` loop:
the `i`-th produced phrase was generated with parity `(n + i) % 2`. -/
theorem progLoop_spec (g : Nat → Nat) (fuel : Nat) :
    ∀ (m n k : Nat) (lst : List (List Nat)) (k3 : Nat),
      progLoop g fuel m n k = some (lst, k3) →
      ∀ (i : Nat) (ph : List Nat), lst.get? i = some ph →
        ∃ thr core c, 3 ≤ thr ∧ thr ≤ 9 ∧ thr < (core ++ [c]).length ∧
          (if (n + i) % 2 = 0 then ph = core ++ [c, 5] ∧ c ∈ halfCadence
           else ph = core ++ [c, 5, 1] ∧ c ∈ authCadence) := by
  intro m
  induction m with
  | zero =>
    intro n k lst k3 h i ph hi
    simp only [progLoop, Option.some.injEq, Prod.mk.injEq] at h
    rw [← h.1] at hi
    simp at hi
  | succ m ih =>
    intro n k lst k3 h i ph hi
    simp only [progLoop] at h
    split at h
    · exact absurd h (by simp)
    · rename_i ph0 k2 hph0
      split at h
      · exact absurd h (by simp)
      · rename_i rest krest hrest
        rw [Option.some.injEq, Prod.mk.injEq] at h
        obtain ⟨hlst, _⟩ := h
        rw [← hlst] at hi
        cases i with
        | zero =>
          simp only [List.get?_cons_zero, Option.some.injEq] at hi
          subst hi
          obtain ⟨thr, mid, c, h3, h9, hl, hco⟩ :=
            phraseLoop_spec g fuel _ _ _ _ _ _ hph0
          refine ⟨thr, (choose g k (transitions 0)).1 :: mid, c, h3, h9, ?_, ?_⟩
          · simpa [List.append_assoc] using hl
          · by_cases hn : n % 2 = 0
            · rw [if_pos (by omega : (n + 0) % 2 = 0)]
              rw [if_pos (by simp [hn])] at hco
              exact ⟨by rw [hco.1]; simp, hco.2⟩
            · rw [if_neg (by omega : ¬(n + 0) % 2 = 0)]
              rw [if_neg (by simp [hn])] at hco
              exact ⟨by rw [hco.1]; simp, hco.2⟩
        | succ i =>
          simp only [List.get?_cons_succ] at hi
          obtain ⟨thr, core, c, h3, h9, hl, hco⟩ := ih (n + 1) _ _ _ hrest i ph hi
          refine ⟨thr, core, c, h3, h9, hl, ?_⟩
          have hmod : (n + 1 + i) % 2 = (n + (i + 1)) % 2 := by omega
          rw [hmod] at hco
          exact hco

/-- C9: every phrase produced by a terminating run of
`basic_chord_progression` (any oracle, any phrase count) has length ≥ 4;
an even-indexed phrase ends `..., c, 5` with the resolved degree `c`
before the final 5 in `{6,2,4,1}`, an odd-indexed phrase ends `..., c, 5, 1`
with `c` in `{2,4,6,1,7}`; and termination happened only once the phrase
length (before the cadence tail) exceeded a threshold drawn from
`{3, ..., 9}`. -/
theorem c9_progression_phrases (g : Nat → Nat) (fuel phrases : Nat)
    (prog : List (List Nat)) (h : basic_chord_progression g fuel phrases = some prog)
    (i : Nat) (ph : List Nat) (hi : prog.get? i = some ph) :
    4 ≤ ph.length ∧
    ∃ thr core c, 3 ≤ thr ∧ thr ≤ 9 ∧ thr < (core ++ [c]).length ∧
      ((i % 2 = 0 ∧ ph = core ++ [c, 5] ∧ c ∈ halfCadence) ∨
       (i % 2 ≠ 0 ∧ ph = core ++ [c, 5, 1] ∧ c ∈ authCadence)) := by
  have hp : ∃ k3, progLoop g fuel phrases 0 0 = some (prog, k3) := by
    rw [basic_chord_progression] at h
    cases hpl : progLoop g fuel phrases 0 0 with
    | none => rw [hpl] at h; exact absurd h (by simp)
    | some r =>
      rw [hpl] at h
      simp only [Option.map_some', Option.some.injEq] at h
      exact ⟨r.2, by rw [← h]⟩
  obtain ⟨k3, hpl⟩ := hp
  obtain ⟨thr, core, c, h3, h9, hl, hco⟩ := progLoop_spec g fuel phrases 0 0 prog k3 hpl i ph hi
  rw [show (0 + i) % 2 = i % 2 by omega] at hco
  by_cases hev : i % 2 = 0
  · rw [if_pos hev] at hco
    refine ⟨?_, thr, core, c, h3, h9, hl, Or.inl ⟨hev, hco⟩⟩
    rw [hco.1]
    simp at hl ⊢
    omega
  · rw [if_neg hev] at hco
    refine ⟨?_, thr, core, c, h3, h9, hl, Or.inr ⟨hev, hco⟩⟩
    rw [hco.1]
    simp at hl ⊢
    omega

/-- C9 witness: the all-zeros oracle with one phrase yields
`[[1, 3, 6, 2, 5]]`, and the theorem's guarantees hold of it. -/
theorem c9_witness :
    4 ≤ ([1, 3, 6, 2, 5] : List Nat).length ∧
    ∃ thr core c, 3 ≤ thr ∧ thr ≤ 9 ∧ thr < (core ++ [c]).length ∧
      ((0 % 2 = 0 ∧ ([1, 3, 6, 2, 5] : List Nat) = core ++ [c, 5] ∧ c ∈ halfCadence) ∨
       (0 % 2 ≠ 0 ∧ ([1, 3, 6, 2, 5] : List Nat) = core ++ [c, 5, 1] ∧ c ∈ authCadence)) :=
  c9_progression_phrases (fun _ => 0) 20 1 [[1, 3, 6, 2, 5]] (by decide) 0 [1, 3, 6, 2, 5] rfl
/-! ## C7: parse ∘ format ∘ parse machinery -/

theorem digit_not_marker {c : Char} (h : isDigitCh c = true) :
    c ≠ 'e' ∧ c ≠ 'i' ∧ c ≠ 'b' ∧ c ≠ '#' ∧ c ≠ 's' := by
  refine ⟨?_, ?_, ?_, ?_, ?_⟩ <;> (intro hc; subst hc; exact absurd h (by decide))

theorem esCount_stop {c : Char} (cs : List Char) (h : ¬c = 'e') :
    esCount (c :: cs) = (0, c :: cs) := by
  cases cs with
  | nil => rfl
  | cons c2 r =>
    simp only [esCount]
    rw [if_neg (fun hh => h hh.1)]

theorem isCount_stop {c : Char} (cs : List Char) (h : ¬c = 'i') :
    isCount (c :: cs) = (0, c :: cs) := by
  cases cs with
  | nil => rfl
  | cons c2 r =>
    simp only [isCount]
    rw [if_neg (fun hh => h hh.1)]

theorem octTail_some (l : List Char) (hne : l ≠ []) (hall : l.all isDigitCh = true) :
    octTail l = some (digitsToNat l) := by
  rw [octTail, if_pos ⟨hne, hall⟩]

theorem octTail_none {x : Char} (xs : List Char) (hx : isDigitCh x = false) :
    octTail (x :: xs) = none := by
  rw [octTail, if_neg]
  rintro ⟨-, hall⟩
  rw [List.all_cons, hx] at hall
  exact Bool.noConfusion hall

theorem chCount_split (ch : Char) (k : Nat) (c : Char) (cs : List Char) (hc : ¬c = ch) :
    chCount ch (List.replicate k ch ++ c :: cs) = (k, c :: cs) := by
  have hall : (List.replicate k ch).all (fun x => x = ch) = true := by
    simp [List.all_eq_true, List.mem_replicate]
  rw [chCount, takeWhile_append_of_all _ _ hall, dropWhile_append_of_all _ _ hall]
  simp [List.takeWhile_cons, List.dropWhile_cons, hc]

theorem chCount_stop (ch c : Char) (cs : List Char) (hc : ¬c = ch) :
    chCount ch (c :: cs) = (0, c :: cs) := by
  have := chCount_split ch 0 c cs hc
  simpa using this

/-- `parseAcc` on a bare digit run: the first (`(?:es)*`) alternative
matches zero repetitions and the whole remainder is the octave. -/
theorem parseAcc_digits (c : Char) (cs : List Char) (hdig : (c :: cs).all isDigitCh = true) :
    parseAcc (c :: cs) = some (0, digitsToNat (c :: cs)) := by
  have hc : isDigitCh c = true := by
    rw [List.all_cons] at hdig
    exact (Bool.and_eq_true _ _).mp hdig |>.1
  have hm := digit_not_marker hc
  rw [parseAcc, accAlt, esCount_stop cs hm.1]
  rw [octTail_some _ (by simp) hdig]
  norm_num

/-- `parseAcc` on a sharp run followed by digits. -/
theorem parseAcc_sharps (k : Nat) (hk : 0 < k) (c : Char) (cs : List Char)
    (hdig : (c :: cs).all isDigitCh = true) :
    parseAcc (List.replicate k '#' ++ c :: cs) = some ((k : Int), digitsToNat (c :: cs)) := by
  have hc : isDigitCh c = true := by
    rw [List.all_cons] at hdig
    exact (Bool.and_eq_true _ _).mp hdig |>.1
  have hm := digit_not_marker hc
  obtain ⟨k', rfl⟩ : ∃ k', k = k' + 1 := ⟨k - 1, by omega⟩
  rw [show List.replicate (k' + 1) '#' ++ c :: cs = '#' :: (List.replicate k' '#' ++ c :: cs)
    from by simp [List.replicate_succ]]
  rw [parseAcc, accAlt, esCount_stop _ (by decide)]
  rw [octTail_none _ (by decide)]
  rw [accAlt, isCount_stop _ (by decide)]
  rw [octTail_none _ (by decide)]
  rw [accAlt, chCount_stop 'b' '#' _ (by decide)]
  rw [octTail_none _ (by decide)]
  rw [accAlt]
  rw [show ('#' :: (List.replicate k' '#' ++ c :: cs)) =
    List.replicate (k' + 1) '#' ++ c :: cs from by simp [List.replicate_succ]]
  rw [chCount_split '#' (k' + 1) c cs hm.2.2.2.1]
  rw [octTail_some _ (by simp) hdig]

/-- `parseAcc` on a flat run followed by digits. -/
theorem parseAcc_flats (k : Nat) (hk : 0 < k) (c : Char) (cs : List Char)
    (hdig : (c :: cs).all isDigitCh = true) :
    parseAcc (List.replicate k 'b' ++ c :: cs) = some (-(k : Int), digitsToNat (c :: cs)) := by
  have hc : isDigitCh c = true := by
    rw [List.all_cons] at hdig
    exact (Bool.and_eq_true _ _).mp hdig |>.1
  have hm := digit_not_marker hc
  obtain ⟨k', rfl⟩ : ∃ k', k = k' + 1 := ⟨k - 1, by omega⟩
  rw [show List.replicate (k' + 1) 'b' ++ c :: cs = 'b' :: (List.replicate k' 'b' ++ c :: cs)
    from by simp [List.replicate_succ]]
  rw [parseAcc, accAlt, esCount_stop _ (by decide)]
  rw [octTail_none _ (by decide)]
  rw [accAlt, isCount_stop _ (by decide)]
  rw [octTail_none _ (by decide)]
  rw [accAlt]
  rw [show ('b' :: (List.replicate k' 'b' ++ c :: cs)) =
    List.replicate (k' + 1) 'b' ++ c :: cs from by simp [List.replicate_succ]]
  rw [chCount_split 'b' (k' + 1) c cs hm.2.2.1]
  rw [octTail_some _ (by simp) hdig]
theorem afterBase_inv (idx extra : Nat) (r : List Char) (b t : Int)
    (h : afterBase idx extra r = some (b, t)) :
    ∃ (t0 : Int) (o : Nat), parseAcc r = some (t0, o) ∧ b = (o : Int) * 7 + idx ∧
      t = t0 - extra := by
  rw [afterBase] at h
  cases hpa : parseAcc r with
  | none => rw [hpa] at h; exact absurd h (by simp)
  | some v0 =>
    obtain ⟨t0, o⟩ := v0
    rw [hpa] at h
    simp only [Option.some.injEq, Prod.mk.injEq] at h
    exact ⟨t0, o, rfl, h.1.symm, h.2.symm⟩

theorem pitchLetterIdx_lt {c : Char} {idx : Nat} (h : pitchLetterIdx c = some idx) :
    idx < 7 := by
  rw [pitchLetterIdx.eq_def] at h
  split at h <;> simp_all <;> omega

/-- Any successful parse yields a `base_pitch_id` of the form
`octave * 7 + letter_index` with `letter_index < 7`. -/
theorem parsePitchLower_shape (s : List Char) (b t : Int)
    (h : parsePitchLower s = some (b, t)) :
    ∃ (o idx : Nat), idx < 7 ∧ b = (o : Int) * 7 + idx := by
  rw [parsePitchLower.eq_def] at h
  split at h
  · rename_i v hv
    split at hv
    · split at hv
      · rename_i r c1 c2 hcc
        obtain ⟨t0, o, _, hb, _⟩ := afterBase_inv 5 1 _ b t (by
          rw [hv]
          simp only [Option.some.injEq] at h
          rw [h])
        exact ⟨o, 5, by omega, hb⟩
      · exact absurd hv (by simp)
    · exact absurd hv (by simp)
  · split at h
    · rename_i v hv
      split at hv
      · split at hv
        · rename_i r c1 c2 hcc
          obtain ⟨t0, o, _, hb, _⟩ := afterBase_inv 2 1 _ b t (by
            rw [hv]
            simp only [Option.some.injEq] at h
            rw [h])
          exact ⟨o, 2, by omega, hb⟩
        · exact absurd hv (by simp)
      · exact absurd hv (by simp)
    · split at h
      · split at h
        · rename_i idx hidx
          obtain ⟨t0, o, _, hb, _⟩ := afterBase_inv idx 0 _ b t h
          exact ⟨o, idx, pitchLetterIdx_lt hidx, hb⟩
        · exact absurd h (by simp)
      · exact absurd h (by simp)

theorem fdivmod7 (o idx : Nat) (h : idx < 7) :
    ((o : Int) * 7 + idx).fmod 7 = idx ∧ ((o : Int) * 7 + idx).fdiv 7 = o := by
  rw [Int.fmod_eq_emod _ (by norm_num : (0 : Int) ≤ 7),
    Int.fdiv_eq_ediv _ (by norm_num : (0 : Int) ≤ 7)]
  omega

theorem toLower_fixed {c : Char} (h : c.toNat < 65 ∨ 90 < c.toNat) : Char.toLower c = c := by
  have h' : ¬(c.toNat ≥ 65 ∧ c.toNat ≤ 90) := by omega
  simp [Char.toLower, h']

theorem digit_toLower {c : Char} (h : isDigitCh c = true) : Char.toLower c = c := by
  apply toLower_fixed
  simp only [isDigitCh, Bool.and_eq_true, decide_eq_true_eq] at h
  omega

theorem map_toLower_id (l : List Char) (h : ∀ c ∈ l, Char.toLower c = c) :
    l.map Char.toLower = l := by
  induction l with
  | nil => rfl
  | cons x xs ih =>
    rw [List.map_cons, h x (by simp), ih fun c hc => h c (by simp [hc])]

theorem natRepr_cons (n : Nat) : ∃ c cs, natRepr n = c :: cs ∧
    (c :: cs).all isDigitCh = true ∧ digitsToNat (c :: cs) = n := by
  cases hre : natRepr n with
  | nil => exact absurd hre (natRepr_ne_nil n)
  | cons c cs =>
    refine ⟨c, cs, rfl, ?_, ?_⟩
    · rw [← hre]; exact natRepr_all_digits n
    · rw [← hre]; exact digitsToNat_natRepr n

theorem letter_facts (idx : Nat) (h : idx < 7) :
    Char.toLower (pitchLetters.getD idx 'c') = pitchLetters.getD idx 'c' ∧
    pitchLetterIdx (pitchLetters.getD idx 'c') = some idx ∧
    ¬(pitchLetters.getD idx 'c' = 's') := by
  interval_cases idx <;> exact ⟨by decide, by decide, by decide⟩

theorem parsePitchLower_eval (L x : Char) (rest : List Char) (idx : Nat)
    (hx : ¬(x = 's')) (hli : pitchLetterIdx L = some idx) :
    parsePitchLower (L :: x :: rest) = afterBase idx 0 (x :: rest) := by
  have h1 : ¬(L = 'a' ∧ x = 's') := fun hh => hx hh.2
  have h2 : ¬(L = 'e' ∧ x = 's') := fun hh => hx hh.2
  simp only [parsePitchLower.eq_def, if_neg h1, if_neg h2, hli]
/-- Re-parsing the canonical name of any parse result recovers it exactly. -/
theorem parse_canonical (o idx : Nat) (hidx : idx < 7) (t : Int) :
    parse_pitch_name (pitchName ((o : Int) * 7 + idx) t) =
      some ((o : Int) * 7 + idx, t) := by
  obtain ⟨c, cs, hre, hall, hval⟩ := natRepr_cons o
  have hcdig : isDigitCh c = true := by
    rw [List.all_cons, Bool.and_eq_true] at hall
    exact hall.1
  obtain ⟨hLfix, hLidx, hLs⟩ := letter_facts idx hidx
  obtain ⟨hfm, hfd⟩ := fdivmod7 o idx hidx
  have hotn : ((o : Int)).toNat = o := by omega
  have hname : pitchName ((o : Int) * 7 + idx) t =
      pitchLetters.getD idx 'c' :: (accidentalChars t ++ (c :: cs)) := by
    rw [pitchName]
    have h1 : pitchClassChar ((o : Int) * 7 + idx) = pitchLetters.getD idx 'c' := by
      rw [pitchClassChar, hfm]
      norm_num
    have h2 : intRepr (octaveOf ((o : Int) * 7 + idx)) = c :: cs := by
      rw [octaveOf, hfd, intRepr, if_neg (by omega : ¬((o : Int) < 0)), hotn, hre]
    rw [h1, h2]
  have hmap : (pitchName ((o : Int) * 7 + idx) t).map Char.toLower =
      pitchName ((o : Int) * 7 + idx) t := by
    apply map_toLower_id
    intro ch hch
    rw [hname] at hch
    simp only [List.mem_cons, List.mem_append] at hch
    rcases hch with rfl | hacc | hdigm
    · exact hLfix
    · rw [accidentalChars] at hacc
      split at hacc
      · rw [List.eq_of_mem_replicate hacc]
        decide
      · rw [List.eq_of_mem_replicate hacc]
        decide
    · apply digit_toLower
      rw [List.all_eq_true] at hall
      exact hall ch (List.mem_cons.mpr hdigm)
  rw [parse_pitch_name, hmap, hname]
  rcases lt_trichotomy t 0 with ht | rfl | ht
  · -- flats
    have hk : 0 < (-t).toNat := by omega
    have hacc : accidentalChars t = List.replicate (-t).toNat 'b' := by
      rw [accidentalChars, if_neg (by omega : ¬(0 < t))]
    obtain ⟨k', hk'⟩ : ∃ k', (-t).toNat = k' + 1 := ⟨(-t).toNat - 1, by omega⟩
    have hshape : accidentalChars t ++ (c :: cs) =
        'b' :: (List.replicate k' 'b' ++ (c :: cs)) := by
      rw [hacc, hk', List.replicate_succ, List.cons_append]
    rw [hshape, parsePitchLower_eval _ 'b' _ idx (by decide) hLidx]
    rw [afterBase, show ('b' :: (List.replicate k' 'b' ++ (c :: cs))) =
      List.replicate (k' + 1) 'b' ++ (c :: cs) from by rw [List.replicate_succ, List.cons_append]]
    rw [parseAcc_flats (k' + 1) (by omega) c cs hall, hval]
    simp only [Option.some.injEq, Prod.mk.injEq]
    refine ⟨trivial, ?_⟩
    push_cast
    omega
  · -- no accidentals
    have hacc : accidentalChars 0 = [] := by
      rw [accidentalChars, if_neg (by omega : ¬((0 : Int) < 0))]
      simp
    rw [hacc, List.nil_append,
      parsePitchLower_eval _ c cs idx (digit_not_marker hcdig).2.2.2.2 hLidx]
    rw [afterBase, parseAcc_digits c cs hall, hval]
    norm_num
  · -- sharps
    have hk : 0 < t.toNat := by omega
    have hacc : accidentalChars t = List.replicate t.toNat '#' := by
      rw [accidentalChars, if_pos ht]
    obtain ⟨k', hk'⟩ : ∃ k', t.toNat = k' + 1 := ⟨t.toNat - 1, by omega⟩
    have hshape : accidentalChars t ++ (c :: cs) =
        '#' :: (List.replicate k' '#' ++ (c :: cs)) := by
      rw [hacc, hk', List.replicate_succ, List.cons_append]
    rw [hshape, parsePitchLower_eval _ '#' _ idx (by decide) hLidx]
    rw [afterBase, show ('#' :: (List.replicate k' '#' ++ (c :: cs))) =
      List.replicate (k' + 1) '#' ++ (c :: cs) from by rw [List.replicate_succ, List.cons_append]]
    rw [parseAcc_sharps (k' + 1) (by omega) c cs hall, hval]
    simp only [Option.some.injEq, Prod.mk.injEq]
    refine ⟨trivial, ?_⟩
    push_cast
    omega
/-- C7: for every string the pitch-name parser accepts, formatting the parsed
value with `Pitch.name` and re-parsing yields exactly the same
`(base_pitch_id, transposition)` pair — canonicalization is idempotent, for
all letters (including the `as`/`es` contractions), all accidental counts and
all non-negative octaves. -/
theorem c7_parse_format_parse (s : List Char) (b t : Int)
    (h : parse_pitch_name s = some (b, t)) :
    parse_pitch_name (pitchName b t) = some (b, t) := by
  rw [parse_pitch_name] at h
  obtain ⟨o, idx, hidx, rfl⟩ := parsePitchLower_shape _ b t h
  exact parse_canonical o idx hidx t

/-- C7 witness: `"as4"` (the contracted A-flat) parses to `(33, -1)`, formats
to `"ab4"`, and re-parses to the same pair. -/
theorem c7_witness :
    parse_pitch_name ['a', 's', '4'] = some (33, -1) ∧
    pitchName 33 (-1) = ['a', 'b', '4'] ∧
    parse_pitch_name (pitchName 33 (-1)) = some (33, -1) :=
  ⟨by decide, by decide, c7_parse_format_parse ['a', 's', '4'] 33 (-1) (by decide)⟩
end MusicTheory
